import Mathlib

/-!
Verification development for the crypto-treasury-tracker data engine
(`app.py`).  The definitions below are a shallow embedding of the pure
data-processing core of the source file: record normalization and PnL
enrichment (`TreasuryTracker.process_treasury_data`), USD FX-rate
normalization (`TreasuryTracker.get_usd_fx_rates`), currency conversion and
formatting (`TreasuryTracker.format_currency`), the supply-dominance
figures of `display_bitcoin_data`, and the outer merge of
`display_combined_data`.  Python numbers are modelled as rationals (`ℚ`),
possibly-missing JSON fields as `Option`, and dictionaries as association
lists.  The theorems settle the frozen specification claims.
-/

namespace Treasury

/-- Lookup in an association list with a default, modelling Python's
`dict.get(key, default)`. -/
def lookupD {α : Type} (l : List (String × α)) (k : String) (d : α) : α :=
  match l.find? (fun p => p.1 == k) with
  | some p => p.2
  | none => d

/-- One entry of the raw `data['companies']` list as delivered by the API:
every field may be absent. -/
structure RawCompany where
  name : Option String
  symbol : Option String
  country : Option String
  total_holdings : Option ℚ
  total_entry_value_usd : Option ℚ
  total_current_value_usd : Option ℚ
  percentage_of_total_supply : Option ℚ
deriving DecidableEq

/-- The raw treasury payload, reduced to the only field
`process_treasury_data` reads: the (possibly absent) company list. -/
structure RawPayload where
  companies : Option (List RawCompany)
deriving DecidableEq

/-- One row of the processed DataFrame built by `process_treasury_data`:
the normalized columns plus the derived `PnL` and `PnL %` columns. -/
structure Record where
  name : String
  symbol : String
  country : String
  totalHoldings : ℚ
  entryValue : ℚ
  currentValue : ℚ
  pctOfSupply : ℚ
  pnl : ℚ
  pnlPct : ℚ
deriving DecidableEq

/-- Normalization and PnL enrichment of a single company entry
(`process_treasury_data`, lines 160-175): missing strings default to
"Unknown" / "N/A", missing numbers to 0; `PnL = Current - Entry`;
`PnL % = PnL / Entry * 100` guarded by the truthiness test
`if r['Entry Value'] and r['Entry Value'] != 0 else 0`. -/
def mkRecord (c : RawCompany) : Record :=
  let entry := c.total_entry_value_usd.getD 0
  let current := c.total_current_value_usd.getD 0
  let pnl := current - entry
  { name := c.name.getD "Unknown"
    symbol := c.symbol.getD "N/A"
    country := c.country.getD "Unknown"
    totalHoldings := c.total_holdings.getD 0
    entryValue := entry
    currentValue := current
    pctOfSupply := c.percentage_of_total_supply.getD 0
    pnl := pnl
    pnlPct := if entry ≠ 0 then pnl / entry * 100 else 0 }

/-- Stable insertion of a record into a list sorted descending by
`Total Holdings`; the record goes before the first strictly smaller
element. -/
def insertByHoldings (r : Record) : List Record → List Record
  | [] => [r]
  | x :: xs =>
    if x.totalHoldings < r.totalHoldings then r :: x :: xs
    else x :: insertByHoldings r xs

/-- Model of `df.sort_values('Total Holdings', ascending=False)`: a
descending sort by holdings (insertion sort).  The claims proved below only
use that it is a descending permutation of its input. -/
def sortByHoldingsDesc (l : List Record) : List Record :=
  l.foldr insertByHoldings []

/-- `TreasuryTracker.process_treasury_data` (lines 154-178): a falsy
payload or one without a `'companies'` key yields an empty table; otherwise
every company entry is normalized and enriched, and the table sorted
descending by holdings. -/
def process_treasury_data (data : Option RawPayload) : List Record :=
  match data with
  | none => []
  | some d =>
    match d.companies with
    | none => []
    | some cs => sortByHoldingsDesc (cs.map mkRecord)

/-- The fixed currency-symbol dictionary of `format_currency`
(lines 183 and 187). -/
def symbol_map : List (String × String) :=
  [("USD", "$"), ("EUR", "€"), ("GBP", "£"), ("JPY", "¥"),
   ("CAD", "C$"), ("AUD", "A$")]

/-- `symbol_map.get(currency, '$')`. -/
def symbolOf (currency : String) : String :=
  lookupD symbol_map currency "$"

/-- Absolute value on rationals, modelling Python's `abs`. -/
def ratAbs (q : ℚ) : ℚ := if q < 0 then -q else q

/-- Round a rational to the nearest integer, ties to even, modelling the
rounding used by Python's fixed-point float formatting.  The fractional
part of `q` is compared with one half through the equivalent integer-free
comparison of `2*q` with `2*⌊q⌋ + 1`. -/
def roundHalfEven (q : ℚ) : ℤ :=
  let n := ⌊q⌋
  if 2*q < 2*(n:ℚ) + 1 then n
  else if 2*(n:ℚ) + 1 < 2*q then n + 1
  else if n % 2 = 0 then n else n + 1

/-- Render a natural number with at least two digits. -/
def pad2 (n : ℕ) : String :=
  if n < 10 then "0" ++ toString n else toString n

/-- Model of Python's `f"{x:.2f}"` with the float's sign bit passed
explicitly: the magnitude rounded to hundredths and rendered with exactly
two decimal places, with a leading minus when the sign bit is set.  The
sign bit is passed separately because a rational cannot carry the sign of
an IEEE signed zero, which Python renders: `f"{-0.0:.2f}"` is "-0.00". -/
def pyFmt2sign (neg : Bool) (q : ℚ) : String :=
  let cents := (roundHalfEven (ratAbs q * 100)).toNat
  (if neg then "-" else "") ++ toString (cents / 100) ++ "." ++ pad2 (cents % 100)

/-- Model of Python's `f"{q:.2f}"` for a float that is not a negative
zero, so its sign bit agrees with the rational's own sign. -/
def pyFmt2 (q : ℚ) : String :=
  pyFmt2sign (decide (q < 0)) q

/-- `TreasuryTracker.format_currency` (lines 180-197).  The `value_usd`
argument is `none` when the Python value is NaN (`pd.isna`).  A NaN or zero
input renders as the bare symbol and "0"; otherwise the value is converted
with `self.fx_rates.get(currency, 1.0)` and rendered with a magnitude
suffix chosen on the absolute converted value.  The float product
`value_usd * rate` carries the sign bit `sign(v) xor sign(rate)` even when
it is an IEEE signed zero (a nonzero value times a 0.0 rate); a rational
cannot carry that sign, so the raw branch, the only one a zero product can
reach, renders through `pyFmt2sign` with that sign bit made explicit.  In
the suffix branches the product is nonzero (its magnitude is at least
1000), so its sign bit agrees with the rational's sign and `pyFmt2` is the
same rendering. -/
def format_currency (fx : List (String × ℚ)) (value_usd : Option ℚ)
    (currency : String) : String :=
  match value_usd with
  | none => symbolOf currency ++ "0"
  | some v =>
    if v = 0 then symbolOf currency ++ "0"
    else
      let rate := lookupD fx currency 1
      let converted := v * rate
      let sym := symbolOf currency
      if 1000000000 ≤ ratAbs converted then sym ++ pyFmt2 (converted / 1000000000) ++ "B"
      else if 1000000 ≤ ratAbs converted then sym ++ pyFmt2 (converted / 1000000) ++ "M"
      else if 1000 ≤ ratAbs converted then sym ++ pyFmt2 (converted / 1000) ++ "K"
      else sym ++ pyFmt2sign ((decide (v < 0)).xor (decide (rate < 0))) converted

/-- The body of a successful response of the FX-rate API, reduced to the
two fields `get_usd_fx_rates` reads. -/
structure FxResp where
  result : String
  rates : Option (List (String × ℚ))

/-- The hard-coded fallback rate table of `get_usd_fx_rates` (line 149). -/
def fallback_fx : List (String × ℚ) :=
  [("USD", 1), ("EUR", 0), ("GBP", 0), ("JPY", 0), ("CAD", 0), ("AUD", 0)]

/-- The sanity loop of `get_usd_fx_rates` (lines 140-142): any falsy rate
is replaced by 1.0 for USD and 0.0 otherwise. -/
def sanitizeRates (l : List (String × ℚ)) : List (String × ℚ) :=
  l.map fun p => if p.2 = 0 then (p.1, if p.1 = "USD" then 1 else 0) else p

/-- `TreasuryTracker.get_usd_fx_rates` (lines 114-152): on a successful
response with a rate table, build the normalized table (USD pinned to 1.0,
the five other currencies read with default 0) and sanitize it; on any
other outcome return the fallback table. -/
def get_usd_fx_rates (resp : Option FxResp) : List (String × ℚ) :=
  match resp with
  | none => fallback_fx
  | some r =>
    match r.rates with
    | none => fallback_fx
    | some rates =>
      if r.result = "success" then
        sanitizeRates
          [("USD", 1),
           ("EUR", lookupD rates "EUR" 0),
           ("GBP", lookupD rates "GBP" 0),
           ("JPY", lookupD rates "JPY" 0),
           ("CAD", lookupD rates "CAD" 0),
           ("AUD", lookupD rates "AUD" 0)]
      else fallback_fx

/-- The conversion step of `format_currency` (lines 185-186):
`value_usd * self.fx_rates.get(currency, 1.0)`. -/
def convert (fx : List (String × ℚ)) (value_usd : ℚ) (currency : String) : ℚ :=
  value_usd * lookupD fx currency 1

/-- The "Market Cap Dominance" metric of `display_bitcoin_data`
(lines 325-336): if the company list is nonempty, the sum of the reported
`percentage_of_total_supply` values (absent or null read as 0); otherwise,
if the payload-level total holdings figure is nonzero, that total over the
21,000,000 BTC cap times 100; otherwise 0. -/
def dominance_btc (companies : List RawCompany) (total_btc : ℚ) : ℚ :=
  if companies.isEmpty then
    if total_btc ≠ 0 then total_btc / 21000000 * 100 else 0
  else
    (companies.map (fun c => c.percentage_of_total_supply.getD 0)).sum

/-- The donut-chart share of `display_bitcoin_data` (lines 360-361): the
sum of the processed table's `% of Total Supply` column when the table is
nonempty (an empty DataFrame has no columns, so the quantity fallback is
used), clamped to [0, 100]. -/
def donut_share_btc (df : List Record) (total_btc : ℚ) : ℚ :=
  let s :=
    if df.isEmpty then
      if total_btc ≠ 0 then total_btc / 21000000 * 100 else 0
    else (df.map Record.pctOfSupply).sum
  max 0 (min 100 s)

/-- Formalisation of claim C4's own wording, not of the code: prefer the
sum of reported supply percentages when that field is present and nonzero
for at least one company, otherwise fall back to the quantity over the
fixed 21,000,000 BTC cap.  Kept for comparison with `dominance_btc`. -/
def dominance_claimed (companies : List RawCompany) (total_btc : ℚ) : ℚ :=
  if companies.any (fun c => decide (c.percentage_of_total_supply.getD 0 ≠ 0)) then
    (companies.map (fun c => c.percentage_of_total_supply.getD 0)).sum
  else total_btc / 21000000 * 100

/-- One row of a per-asset table entering the combined view: the projected
and renamed columns of `display_combined_data` (lines 460-478). -/
structure ARow where
  company : String
  symbol : String
  country : String
  holdings : ℚ
  entryUSD : ℚ
  currentUSD : ℚ
deriving DecidableEq

/-- The projection/rename applied to each processed record before the
merge (lines 462-467 and 473-478). -/
def Record.toARow (r : Record) : ARow :=
  { company := r.name, symbol := r.symbol, country := r.country,
    holdings := r.totalHoldings, entryUSD := r.entryValue,
    currentUSD := r.currentValue }

/-- The company identity key the merge joins on:
`(Company, Symbol, Country)`. -/
def akey (r : ARow) : String × String × String :=
  (r.company, r.symbol, r.country)

/-- One row of the combined DataFrame after the outer merge, `fillna(0)`
and the total columns of lines 483-485. -/
structure CRow where
  company : String
  symbol : String
  country : String
  btcHeld : ℚ
  entryBTC : ℚ
  currentBTC : ℚ
  ethHeld : ℚ
  entryETH : ℚ
  currentETH : ℚ
  totalEntry : ℚ
  totalCurrent : ℚ
  totalPnl : ℚ
deriving DecidableEq

/-- The identity key of a combined row. -/
def ckey (r : CRow) : String × String × String :=
  (r.company, r.symbol, r.country)

/-- A combined row built from a matching pair of left (BTC) and right
(ETH) rows. -/
def mkBoth (a b : ARow) : CRow :=
  { company := a.company, symbol := a.symbol, country := a.country,
    btcHeld := a.holdings, entryBTC := a.entryUSD, currentBTC := a.currentUSD,
    ethHeld := b.holdings, entryETH := b.entryUSD, currentETH := b.currentUSD,
    totalEntry := a.entryUSD + b.entryUSD,
    totalCurrent := a.currentUSD + b.currentUSD,
    totalPnl := (a.currentUSD + b.currentUSD) - (a.entryUSD + b.entryUSD) }

/-- A combined row for a company present only in the left (BTC) table: the
right-hand fields are the `fillna(0)` zeros. -/
def mkLeft (a : ARow) : CRow :=
  { company := a.company, symbol := a.symbol, country := a.country,
    btcHeld := a.holdings, entryBTC := a.entryUSD, currentBTC := a.currentUSD,
    ethHeld := 0, entryETH := 0, currentETH := 0,
    totalEntry := a.entryUSD + 0,
    totalCurrent := a.currentUSD + 0,
    totalPnl := (a.currentUSD + 0) - (a.entryUSD + 0) }

/-- A combined row for a company present only in the right (ETH) table. -/
def mkRight (b : ARow) : CRow :=
  { company := b.company, symbol := b.symbol, country := b.country,
    btcHeld := 0, entryBTC := 0, currentBTC := 0,
    ethHeld := b.holdings, entryETH := b.entryUSD, currentETH := b.currentUSD,
    totalEntry := 0 + b.entryUSD,
    totalCurrent := 0 + b.currentUSD,
    totalPnl := (0 + b.currentUSD) - (0 + b.entryUSD) }

/-- The rows of the right table matching a given left row's key. -/
def matchRows (B : List ARow) (a : ARow) : List ARow :=
  B.filter fun b => decide (akey b = akey a)

/-- The left-driven part of the outer merge: each left row paired with all
its key matches, or emitted alone with zeros when unmatched. -/
def leftPart (A B : List ARow) : List CRow :=
  A.flatMap fun a =>
    if (matchRows B a).isEmpty then [mkLeft a]
    else (matchRows B a).map (mkBoth a)

/-- The right-only part of the outer merge: the right rows whose key
matches no left row. -/
def rightPart (A B : List ARow) : List CRow :=
  (B.filter fun b => A.all fun a => !decide (akey a = akey b)).map mkRight

/-- Model of `pd.merge(btc, eth, on=['Company','Symbol','Country'],
how='outer').fillna(0)` plus the total columns (lines 472-485): the union
of the left-driven pairings and the unmatched right rows.  Row order is
not part of the model; the claims about the merge are order-insensitive. -/
def merge_outer (A B : List ARow) : List CRow :=
  leftPart A B ++ rightPart A B

/-- The per-company combined PnL percent of `display_combined_data`
(lines 537-540), with the same truthiness zero-guard as the per-asset
computation. -/
def combined_pnl_pct (r : CRow) : ℚ :=
  if r.totalEntry ≠ 0 then (r.totalCurrent - r.totalEntry) / r.totalEntry * 100
  else 0

/-- Exchange of the two assets' field groups in a combined row; used to
compare the merge taken in the two possible argument orders. -/
def swapC (r : CRow) : CRow :=
  { company := r.company, symbol := r.symbol, country := r.country,
    btcHeld := r.ethHeld, entryBTC := r.entryETH, currentBTC := r.currentETH,
    ethHeld := r.btcHeld, entryETH := r.entryBTC, currentETH := r.currentBTC,
    totalEntry := r.totalEntry, totalCurrent := r.totalCurrent,
    totalPnl := r.totalPnl }

theorem mem_insertByHoldings {a r : Record} {l : List Record} :
    a ∈ insertByHoldings r l ↔ a = r ∨ a ∈ l := by
  induction l with
  | nil => simp [insertByHoldings]
  | cons x xs ih =>
    simp only [insertByHoldings]
    split
    · simp [List.mem_cons]
    · simp only [List.mem_cons, ih]
      tauto

theorem mem_sortByHoldingsDesc {a : Record} {l : List Record} :
    a ∈ sortByHoldingsDesc l ↔ a ∈ l := by
  induction l with
  | nil => simp [sortByHoldingsDesc]
  | cons x xs ih =>
    simp only [sortByHoldingsDesc, List.foldr] at ih ⊢
    rw [mem_insertByHoldings, ih, List.mem_cons]

/-- Claim C1: a record whose entry value is 0 or absent gets PnL percent 0
(no division is performed in that case), and otherwise PnL percent is
`(current - entry) / entry * 100`; the combined PnL percent of the merged
view obeys the same zero-guard on the combined totals. -/
theorem pnl_percent_zero_guard (c : RawCompany) (r : CRow) :
    (c.total_entry_value_usd = none → (mkRecord c).pnlPct = 0) ∧
    ((mkRecord c).entryValue = 0 → (mkRecord c).pnlPct = 0) ∧
    ((mkRecord c).entryValue ≠ 0 →
      (mkRecord c).pnlPct =
        ((mkRecord c).currentValue - (mkRecord c).entryValue) /
          (mkRecord c).entryValue * 100) ∧
    (r.totalEntry = 0 → combined_pnl_pct r = 0) ∧
    (r.totalEntry ≠ 0 →
      combined_pnl_pct r = (r.totalCurrent - r.totalEntry) / r.totalEntry * 100) := by
  refine ⟨fun h => ?_, fun h => ?_, fun h => ?_, fun h => ?_, fun h => ?_⟩
  · simp [mkRecord, h]
  · simp only [mkRecord] at h ⊢
    simp [h]
  · simp only [mkRecord] at h ⊢
    rw [if_pos h]
  · simp [combined_pnl_pct, h]
  · rw [combined_pnl_pct, if_pos h]

/-- Sample company record with an absent entry value. -/
def cNoEntry : RawCompany :=
  ⟨some "MicroStrategy", some "MSTR", some "US", some 1000, none, some 50000000, some 1⟩

/-- Zero combined row used to instantiate combined-view statements. -/
def crowZero : CRow := ⟨"A", "A", "US", 0, 0, 0, 0, 0, 0, 0, 0, 0⟩

/-- Witness for C1: the zero-guard fires on a concrete record with an
absent entry value. -/
theorem pnl_percent_zero_guard_witness :
    cNoEntry.total_entry_value_usd = none ∧ (mkRecord cNoEntry).pnlPct = 0 :=
  ⟨rfl, (pnl_percent_zero_guard cNoEntry crowZero).1 rfl⟩

/-- Claim C3: normalization defaults missing numeric fields to 0 and
missing string fields to "Unknown" / "N/A", and a payload without a
company list normalizes to the empty table rather than an error. -/
theorem normalization_defaults (c : RawCompany) (d : RawPayload) :
    (c.name = none → (mkRecord c).name = "Unknown") ∧
    (c.symbol = none → (mkRecord c).symbol = "N/A") ∧
    (c.country = none → (mkRecord c).country = "Unknown") ∧
    (c.total_holdings = none → (mkRecord c).totalHoldings = 0) ∧
    (c.total_entry_value_usd = none → (mkRecord c).entryValue = 0) ∧
    (c.total_current_value_usd = none → (mkRecord c).currentValue = 0) ∧
    (c.percentage_of_total_supply = none → (mkRecord c).pctOfSupply = 0) ∧
    (d.companies = none → process_treasury_data (some d) = []) ∧
    process_treasury_data none = [] := by
  refine ⟨fun h => ?_, fun h => ?_, fun h => ?_, fun h => ?_, fun h => ?_,
    fun h => ?_, fun h => ?_, fun h => ?_, rfl⟩
  all_goals first
    | simp [mkRecord, h]
    | simp [process_treasury_data, h]

/-- Payload with no company list at all. -/
def emptyPayload : RawPayload := ⟨none⟩

/-- Witness for C3: the concrete payload without a company list yields the
empty table. -/
theorem normalization_defaults_witness :
    emptyPayload.companies = none ∧ process_treasury_data (some emptyPayload) = [] :=
  ⟨rfl, (normalization_defaults cNoEntry emptyPayload).2.2.2.2.2.2.2.1 rfl⟩

/-- Company entry carrying a negative holdings quantity. -/
def negCompany : RawCompany :=
  ⟨some "X", some "X", some "US", some (-1), some 0, some 0, some 0⟩

/-- Counterexample to claim C6 as stated: normalization does not clamp
negative inputs, so a payload with a negative `total_holdings` produces a
normalized record with a negative holdings quantity. -/
theorem normalization_negative_passthrough :
    process_treasury_data (some ⟨some [negCompany]⟩) = [mkRecord negCompany] ∧
    (mkRecord negCompany).totalHoldings < 0 :=
  ⟨rfl, by decide⟩

/-- Claim C6 (amended): provided every numeric field that is present in
the raw payload is non-negative, every record of the normalized table has
non-negative holdings, entry value and current value; missing fields
become 0. -/
theorem normalization_nonneg (d : RawPayload) (cs : List RawCompany)
    (hcs : d.companies = some cs)
    (h : ∀ c ∈ cs, (∀ q ∈ c.total_holdings, 0 ≤ q) ∧
         (∀ q ∈ c.total_entry_value_usd, 0 ≤ q) ∧
         (∀ q ∈ c.total_current_value_usd, 0 ≤ q)) :
    ∀ r ∈ process_treasury_data (some d),
      0 ≤ r.totalHoldings ∧ 0 ≤ r.entryValue ∧ 0 ≤ r.currentValue := by
  intro r hr
  simp only [process_treasury_data, hcs] at hr
  rw [mem_sortByHoldingsDesc] at hr
  rcases List.mem_map.mp hr with ⟨c, hc, rfl⟩
  obtain ⟨h1, h2, h3⟩ := h c hc
  refine ⟨?_, ?_, ?_⟩
  · cases hh : c.total_holdings with
    | none => simp [mkRecord, hh]
    | some q => simpa [mkRecord, hh] using h1 q (by simp [hh])
  · cases hh : c.total_entry_value_usd with
    | none => simp [mkRecord, hh]
    | some q => simpa [mkRecord, hh] using h2 q (by simp [hh])
  · cases hh : c.total_current_value_usd with
    | none => simp [mkRecord, hh]
    | some q => simpa [mkRecord, hh] using h3 q (by simp [hh])

/-- Company entry with all numeric fields present and non-negative. -/
def posCompany : RawCompany :=
  ⟨some "A", some "A", some "US", some 5, some 3, some 4, some 0⟩

/-- Payload holding just `posCompany`. -/
def posPayload : RawPayload := ⟨some [posCompany]⟩

/-- Witness for the amended C6 at a concrete non-negative payload. -/
theorem normalization_nonneg_witness :
    posPayload.companies = some [posCompany] ∧
    (0 ≤ (mkRecord posCompany).totalHoldings ∧
      0 ≤ (mkRecord posCompany).entryValue ∧
      0 ≤ (mkRecord posCompany).currentValue) := by
  have hhyp : ∀ c ∈ [posCompany], (∀ q ∈ c.total_holdings, 0 ≤ q) ∧
      (∀ q ∈ c.total_entry_value_usd, 0 ≤ q) ∧
      (∀ q ∈ c.total_current_value_usd, 0 ≤ q) := by
    intro c hc
    simp only [List.mem_singleton] at hc
    subst hc
    refine ⟨?_, ?_, ?_⟩ <;> intro q hq <;>
      simp only [posCompany, Option.mem_def, Option.some.injEq] at hq <;>
      norm_num [← hq]
  refine ⟨rfl, normalization_nonneg posPayload [posCompany] rfl hhyp
    (mkRecord posCompany) ?_⟩
  exact List.mem_singleton.mpr rfl

/-- Company entry whose supply percentage is present but zero. -/
def c4Company : RawCompany :=
  ⟨some "Z", some "Z", some "US", some 100, some 0, some 0, some 0⟩

/-- Counterexample to claim C4 as stated: with a nonempty company list
whose reported supply percentages are all zero, the code sums them (result
0) and never takes the quantity fallback, while the claim's rule demands
the fallback (here 100). -/
theorem dominance_fallback_counterexample :
    dominance_btc [c4Company] 21000000 = 0 ∧
    dominance_claimed [c4Company] 21000000 = 100 ∧
    dominance_btc [c4Company] 21000000 ≠ dominance_claimed [c4Company] 21000000 := by
  refine ⟨?_, ?_, ?_⟩ <;>
    norm_num [dominance_btc, dominance_claimed, c4Company, List.isEmpty, List.any]

/-- Claim C4 (amended): the dominance figure is the sum of the reported
supply percentages whenever the company list is nonempty (even when all of
them are zero or absent); the quantity / 21,000,000 fallback applies only
to an empty company list with a nonzero payload-level total; and the
donut-chart share is clamped to [0, 100]. -/
theorem dominance_amended (cs : List RawCompany) (df : List Record) (t : ℚ) :
    (cs ≠ [] → dominance_btc cs t =
      (cs.map (fun c => c.percentage_of_total_supply.getD 0)).sum) ∧
    (cs = [] → t ≠ 0 → dominance_btc cs t = t / 21000000 * 100) ∧
    (cs = [] → t = 0 → dominance_btc cs t = 0) ∧
    (0 ≤ donut_share_btc df t ∧ donut_share_btc df t ≤ 100) ∧
    (df ≠ [] → donut_share_btc df t =
      max 0 (min 100 ((df.map Record.pctOfSupply).sum))) := by
  refine ⟨fun h => ?_, fun h ht => ?_, fun h ht => ?_, ⟨?_, ?_⟩, fun h => ?_⟩
  · simp [dominance_btc, List.isEmpty_iff, h]
  · simp [dominance_btc, h, ht]
  · simp [dominance_btc, h, ht]
  · exact le_max_left 0 _
  · exact max_le (by norm_num) (min_le_left _ _)
  · simp [donut_share_btc, List.isEmpty_iff, h]

/-- Witness for the amended C4: the nonempty-list branch at a concrete
input. -/
theorem dominance_amended_witness :
    ([c4Company] ≠ ([] : List RawCompany)) ∧
    dominance_btc [c4Company] 0 =
      ([c4Company].map (fun c => c.percentage_of_total_supply.getD 0)).sum :=
  ⟨by simp, (dominance_amended [c4Company] [] 0).1 (by simp)⟩

/-- Claim C9: every rate table the engine uses maps USD to exactly 1.0
(success and fallback paths alike), so conversion to USD is the
identity. -/
theorem usd_rate_identity (resp : Option FxResp) (x : ℚ) :
    List.lookup "USD" (get_usd_fx_rates resp) = some 1 ∧
    convert (get_usd_fx_rates resp) x "USD" = x := by
  have key : List.lookup "USD" (get_usd_fx_rates resp) = some 1 ∧
      lookupD (get_usd_fx_rates resp) "USD" 1 = 1 := by
    match resp with
    | none => exact ⟨rfl, rfl⟩
    | some r =>
      obtain ⟨res, rates⟩ := r
      match rates with
      | none => exact ⟨rfl, rfl⟩
      | some rs =>
        by_cases hs : res = "success"
        · subst hs
          constructor
          · norm_num [get_usd_fx_rates, sanitizeRates, List.lookup]
          · norm_num [get_usd_fx_rates, sanitizeRates, lookupD, List.find?]
        · constructor
          · simp [get_usd_fx_rates, hs]
            rfl
          · simp [get_usd_fx_rates, hs]
            rfl
  exact ⟨key.1, by rw [convert, key.2, mul_one]⟩

/-- Counterexample to claim C10 as stated: a negative value times the
0.0 "unavailable" rate is an IEEE negative zero, and Python's two-decimal
rendering keeps its sign, so formatting -5 USD into EUR through the
fallback table yields "€-0.00" and not the claimed symbol-plus-"0.00". -/
theorem zero_rate_negative_counterexample :
    format_currency (get_usd_fx_rates none) (some (-5)) "EUR" = "€-0.00" ∧
    format_currency (get_usd_fx_rates none) (some (-5)) "EUR" ≠
      symbolOf "EUR" ++ "0.00" := by
  have e1 : pyFmt2sign true 0 = "-0.00" := by
    norm_num [pyFmt2sign, roundHalfEven, ratAbs, pad2, Int.toNat_ofNat]
    rfl
  have h1 : format_currency (get_usd_fx_rates none) (some (-5)) "EUR" = "€-0.00" := by
    simp only [format_currency]
    rw [if_neg (show ¬((-5:ℚ) = 0) by norm_num)]
    rw [show lookupD (get_usd_fx_rates none) "EUR" 1 = 0 from rfl, mul_zero]
    norm_num [ratAbs, e1]
    rfl
  refine ⟨h1, ?_⟩
  rw [h1]
  decide

/-- Claim C10 (amended): with a 0.0 "unavailable" rate for the target
currency (as in the fallback table after an FX-fetch failure), a nonzero
non-NaN value formats through the two-decimal branch as the symbol
followed by "0.00" when the value is positive and by "-0.00" when it is
negative (the float product is a signed zero), either way distinct from
the symbol-plus-"0" rendering of zero or NaN input. -/
theorem zero_rate_formats (x : ℚ) (c : String) (fx : List (String × ℚ))
    (hx : x ≠ 0) (hr : lookupD fx c 1 = 0) :
    (0 < x → format_currency fx (some x) c = symbolOf c ++ "0.00") ∧
    (x < 0 → format_currency fx (some x) c = symbolOf c ++ "-0.00") ∧
    format_currency fx (some x) c ≠ format_currency fx (some 0) c ∧
    lookupD (get_usd_fx_rates none) "EUR" 1 = 0 := by
  have e0 : pyFmt2sign false 0 = "0.00" := by
    norm_num [pyFmt2sign, roundHalfEven, ratAbs, pad2, Int.toNat_ofNat]
    rfl
  have e1 : pyFmt2sign true 0 = "-0.00" := by
    norm_num [pyFmt2sign, roundHalfEven, ratAbs, pad2, Int.toNat_ofNat]
    rfl
  have hbase : format_currency fx (some x) c =
      symbolOf c ++ pyFmt2sign (decide (x < 0)) 0 := by
    simp only [format_currency]
    rw [if_neg hx, hr, mul_zero]
    norm_num [ratAbs]
  have hpos : 0 < x → format_currency fx (some x) c = symbolOf c ++ "0.00" := by
    intro h
    rw [hbase, decide_eq_false (lt_asymm h), e0]
  have hneg : x < 0 → format_currency fx (some x) c = symbolOf c ++ "-0.00" := by
    intro h
    rw [hbase, decide_eq_true h, e1]
  have h0 : format_currency fx (some 0) c = symbolOf c ++ "0" := by
    simp [format_currency]
  refine ⟨hpos, hneg, ?_, rfl⟩
  rcases hx.lt_or_lt with h | h
  · rw [hneg h, h0]
    intro heq
    have := congrArg String.length heq
    simp only [String.length_append] at this
    have h5 : "-0.00".length = 5 := rfl
    have hone : "0".length = 1 := rfl
    omega
  · rw [hpos h, h0]
    intro heq
    have := congrArg String.length heq
    simp only [String.length_append] at this
    have h4 : "0.00".length = 4 := rfl
    have hone : "0".length = 1 := rfl
    omega

/-- Witness for the amended C10: formatting 5 USD into EUR through the
fallback table (EUR rate 0.0) yields "€0.00". -/
theorem zero_rate_formats_witness :
    ((5:ℚ) ≠ 0) ∧ lookupD (get_usd_fx_rates none) "EUR" 1 = 0 ∧ ((0:ℚ) < 5) ∧
    format_currency (get_usd_fx_rates none) (some 5) "EUR" = "€0.00" := by
  have h := zero_rate_formats 5 "EUR" (get_usd_fx_rates none) (by norm_num) rfl
  exact ⟨by norm_num, rfl, by norm_num, (h.1 (by norm_num)).trans rfl⟩

/-- Claim C8: formatting puts the currency's symbol ("$" for unknown
codes) before the converted value and picks the magnitude suffix by
threshold on the absolute converted value (1e9 for "B", 1e6 for "M", 1e3
for "K", otherwise the raw value), always rendered with two decimals (in
the raw branch with the sign bit of the float product made explicit, since
the product there may be a signed zero); zero or NaN input renders as
exactly the symbol followed by "0". -/
theorem format_currency_spec (fx : List (String × ℚ)) (c : String) (x : ℚ) :
    (format_currency fx none c = symbolOf c ++ "0") ∧
    (format_currency fx (some 0) c = symbolOf c ++ "0") ∧
    (x ≠ 0 → 1000000000 ≤ ratAbs (x * lookupD fx c 1) →
      format_currency fx (some x) c =
        symbolOf c ++ pyFmt2 (x * lookupD fx c 1 / 1000000000) ++ "B") ∧
    (x ≠ 0 → ¬ 1000000000 ≤ ratAbs (x * lookupD fx c 1) →
      1000000 ≤ ratAbs (x * lookupD fx c 1) →
      format_currency fx (some x) c =
        symbolOf c ++ pyFmt2 (x * lookupD fx c 1 / 1000000) ++ "M") ∧
    (x ≠ 0 → ¬ 1000000000 ≤ ratAbs (x * lookupD fx c 1) →
      ¬ 1000000 ≤ ratAbs (x * lookupD fx c 1) →
      1000 ≤ ratAbs (x * lookupD fx c 1) →
      format_currency fx (some x) c =
        symbolOf c ++ pyFmt2 (x * lookupD fx c 1 / 1000) ++ "K") ∧
    (x ≠ 0 → ¬ 1000000000 ≤ ratAbs (x * lookupD fx c 1) →
      ¬ 1000000 ≤ ratAbs (x * lookupD fx c 1) →
      ¬ 1000 ≤ ratAbs (x * lookupD fx c 1) →
      format_currency fx (some x) c =
        symbolOf c ++ pyFmt2sign ((decide (x < 0)).xor (decide (lookupD fx c 1 < 0)))
          (x * lookupD fx c 1)) ∧
    (c ∉ ["USD", "EUR", "GBP", "JPY", "CAD", "AUD"] → symbolOf c = "$") := by
  refine ⟨rfl, by simp [format_currency], fun hx h9 => ?_, fun hx h9 h6 => ?_,
    fun hx h9 h6 h3 => ?_, fun hx h9 h6 h3 => ?_, fun hc => ?_⟩
  · simp only [format_currency]
    rw [if_neg hx, if_pos h9]
  · simp only [format_currency]
    rw [if_neg hx, if_neg h9, if_pos h6]
  · simp only [format_currency]
    rw [if_neg hx, if_neg h9, if_neg h6, if_pos h3]
  · simp only [format_currency]
    rw [if_neg hx, if_neg h9, if_neg h6, if_neg h3]
  · simp only [List.mem_cons, List.mem_singleton, not_or] at hc
    obtain ⟨h1, h2, h3, h4, h5, h6, -⟩ := hc
    have : symbol_map.find? (fun p => p.1 == c) = none := by
      rw [List.find?_eq_none]
      intro p hp
      simp only [symbol_map, List.mem_cons, List.mem_singleton] at hp
      rcases hp with rfl | rfl | rfl | rfl | rfl | rfl | h
      · simpa using fun he => h1 he.symm
      · simpa using fun he => h2 he.symm
      · simpa using fun he => h3 he.symm
      · simpa using fun he => h4 he.symm
      · simpa using fun he => h5 he.symm
      · simpa using fun he => h6 he.symm
      · simp at h
    rw [symbolOf, lookupD, this]

/-- Witness for C8: the "K" branch at 1,500 USD with the identity rate
table, rendering "$1.50K". -/
theorem format_currency_spec_witness :
    ((1500:ℚ) ≠ 0) ∧ (1000:ℚ) ≤ ratAbs (1500 * lookupD [("USD", 1)] "USD" 1) ∧
    format_currency [("USD", 1)] (some 1500) "USD" = "$1.50K" := by
  have h := (format_currency_spec [("USD", 1)] "USD" 1500).2.2.2.2.1
    (by norm_num) (by norm_num [ratAbs, lookupD, List.find?])
    (by norm_num [ratAbs, lookupD, List.find?]) (by norm_num [ratAbs, lookupD, List.find?])
  refine ⟨by norm_num, by norm_num [ratAbs, lookupD, List.find?], h.trans ?_⟩
  have : pyFmt2 (1500 * lookupD [("USD", (1:ℚ))] "USD" 1 / 1000) = "1.50" := by
    norm_num [pyFmt2, pyFmt2sign, roundHalfEven, ratAbs, pad2, Int.toNat_ofNat, lookupD,
      List.find?]
    rfl
  rw [this]
  rfl

theorem ckey_mkBoth (a b : ARow) : ckey (mkBoth a b) = akey a := rfl

theorem ckey_mkLeft (a : ARow) : ckey (mkLeft a) = akey a := rfl

theorem ckey_mkRight (b : ARow) : ckey (mkRight b) = akey b := rfl

theorem mem_leftPart {A B : List ARow} {r : CRow} :
    r ∈ leftPart A B ↔
      ∃ a ∈ A, ((matchRows B a).isEmpty ∧ r = mkLeft a) ∨
        ∃ b ∈ matchRows B a, r = mkBoth a b := by
  simp only [leftPart, List.mem_flatMap]
  constructor
  · rintro ⟨a, ha, hr⟩
    refine ⟨a, ha, ?_⟩
    by_cases he : (matchRows B a).isEmpty
    · rw [if_pos he] at hr
      simp only [List.mem_singleton] at hr
      exact Or.inl ⟨he, hr⟩
    · rw [if_neg he] at hr
      rcases List.mem_map.mp hr with ⟨b, hb, rfl⟩
      exact Or.inr ⟨b, hb, rfl⟩
  · rintro ⟨a, ha, ⟨he, rfl⟩ | ⟨b, hb, rfl⟩⟩
    · exact ⟨a, ha, by rw [if_pos he]; exact List.mem_singleton.mpr rfl⟩
    · refine ⟨a, ha, ?_⟩
      have hne : ¬ (matchRows B a).isEmpty := by
        intro he
        rw [List.isEmpty_iff] at he
        rw [he] at hb
        exact absurd hb (List.not_mem_nil b)
      rw [if_neg hne]
      exact List.mem_map.mpr ⟨b, hb, rfl⟩

theorem mem_rightPart {A B : List ARow} {r : CRow} :
    r ∈ rightPart A B ↔
      ∃ b ∈ B, (∀ a ∈ A, ¬ akey a = akey b) ∧ r = mkRight b := by
  simp only [rightPart, List.mem_map, List.mem_filter]
  constructor
  · rintro ⟨b, ⟨hb, hall⟩, rfl⟩
    refine ⟨b, hb, fun a ha => ?_, rfl⟩
    have := List.all_eq_true.mp hall a ha
    simpa using this
  · rintro ⟨b, hb, hall, rfl⟩
    refine ⟨b, ⟨hb, ?_⟩, rfl⟩
    rw [List.all_eq_true]
    intro a ha
    simpa using hall a ha

theorem swapC_mkBoth (a b : ARow) (h : akey b = akey a) :
    swapC (mkBoth a b) = mkBoth b a := by
  obtain ⟨h1, h2, h3⟩ : b.company = a.company ∧ b.symbol = a.symbol ∧
      b.country = a.country := by simpa [akey, Prod.ext_iff] using h
  simp [swapC, mkBoth, CRow.mk.injEq, h1, h2, h3, add_comm]

theorem swapC_mkLeft (a : ARow) : swapC (mkLeft a) = mkRight a := by
  simp [swapC, mkLeft, mkRight, CRow.mk.injEq]

theorem swapC_mkRight (b : ARow) : swapC (mkRight b) = mkLeft b := by
  simp [swapC, mkLeft, mkRight, CRow.mk.injEq]

theorem swapC_swapC (r : CRow) : swapC (swapC r) = r := rfl

theorem mem_merge_swap {A B : List ARow} {r : CRow}
    (h : r ∈ merge_outer A B) : swapC r ∈ merge_outer B A := by
  rw [merge_outer, List.mem_append] at h ⊢
  rcases h with h | h
  · rcases mem_leftPart.mp h with ⟨a, ha, ⟨he, rfl⟩ | ⟨b, hb, rfl⟩⟩
    · right
      rw [swapC_mkLeft]
      apply mem_rightPart.mpr
      refine ⟨a, ha, fun b hbB hk => ?_, rfl⟩
      have hmem : b ∈ matchRows B a := List.mem_filter.mpr ⟨hbB, by simp [hk]⟩
      rw [List.isEmpty_iff] at he
      rw [he] at hmem
      exact absurd hmem (List.not_mem_nil b)
    · left
      rw [swapC_mkBoth a b (of_decide_eq_true (List.mem_filter.mp hb).2)]
      apply mem_leftPart.mpr
      have hbB : b ∈ B := (List.mem_filter.mp hb).1
      have hkey : akey b = akey a := of_decide_eq_true (List.mem_filter.mp hb).2
      refine ⟨b, hbB, Or.inr ⟨a, ?_, rfl⟩⟩
      exact List.mem_filter.mpr ⟨ha, by simp [hkey]⟩
  · rcases mem_rightPart.mp h with ⟨b, hb, hall, rfl⟩
    left
    rw [swapC_mkRight]
    apply mem_leftPart.mpr
    refine ⟨b, hb, Or.inl ⟨?_, rfl⟩⟩
    have : matchRows A b = [] := by
      rw [matchRows, List.filter_eq_nil_iff]
      intro x hx
      simpa using hall x hx
    rw [this]
    rfl

/-- Claim C7: the outer merge taken in the two argument orders yields the
same set of combined rows up to exchanging the two assets' field groups,
and the exchange preserves the identity key and the combined totals. -/
theorem merge_outer_commutes (A B : List ARow) (r : CRow) :
    (r ∈ merge_outer A B ↔ swapC r ∈ merge_outer B A) ∧
    ckey (swapC r) = ckey r ∧
    (swapC r).totalCurrent = r.totalCurrent ∧
    (swapC r).totalEntry = r.totalEntry := by
  refine ⟨⟨fun h => mem_merge_swap h, fun h => ?_⟩, rfl, rfl, rfl⟩
  have h2 := mem_merge_swap h
  rwa [swapC_swapC] at h2

theorem length_matchRows_le_one (B : List ARow) (hB : (B.map akey).Nodup)
    (a : ARow) : (matchRows B a).length ≤ 1 := by
  induction B with
  | nil => simp [matchRows]
  | cons b B ih =>
    rw [List.map_cons, List.nodup_cons] at hB
    obtain ⟨hnot, hB'⟩ := hB
    simp only [matchRows, List.filter_cons] at ih ⊢
    by_cases hk : akey b = akey a
    · rw [if_pos (by simp [hk])]
      have hnil : B.filter (fun x => decide (akey x = akey a)) = [] := by
        rw [List.filter_eq_nil_iff]
        intro x hx hdx
        have hxk : akey x = akey a := of_decide_eq_true hdx
        have hbx : akey b = akey x := hk.trans hxk.symm
        exact hnot (by rw [hbx]; exact List.mem_map_of_mem akey hx)
      rw [hnil]
      simp
    · rw [if_neg (by simp [hk])]
      exact ih hB'

theorem length_matchRows_eq_one {B : List ARow} (hB : (B.map akey).Nodup)
    {a : ARow} (hne : ¬ (matchRows B a).isEmpty) : (matchRows B a).length = 1 := by
  have hle := length_matchRows_le_one B hB a
  have hnz : (matchRows B a).length ≠ 0 := by
    intro h0
    exact hne (by rw [List.isEmpty_iff, ← List.length_eq_zero]; exact h0)
  omega

theorem countP_key_nodup (A : List ARow) (k : String × String × String)
    (hA : (A.map akey).Nodup) :
    A.countP (fun a => decide (akey a = k)) = if k ∈ A.map akey then 1 else 0 := by
  induction A with
  | nil => simp
  | cons a A ih =>
    rw [List.map_cons, List.nodup_cons] at hA
    obtain ⟨hnot, hA'⟩ := hA
    rw [List.countP_cons, ih hA', List.map_cons]
    by_cases hk : akey a = k
    · have hkA : k ∉ List.map akey A := by rw [← hk]; exact hnot
      rw [if_neg hkA]
      simp [List.mem_cons, hk]
    · have hne : ¬ k = akey a := fun h => hk h.symm
      simp [List.mem_cons, hk, hne]

theorem countP_leftPart (A B : List ARow) (k : String × String × String)
    (hB : (B.map akey).Nodup) :
    (leftPart A B).countP (fun r => decide (ckey r = k)) =
      A.countP (fun a => decide (akey a = k)) := by
  induction A with
  | nil => rfl
  | cons a A ih =>
    have hcons : leftPart (a :: A) B =
        (if (matchRows B a).isEmpty then [mkLeft a]
         else (matchRows B a).map (mkBoth a)) ++ leftPart A B := by
      simp [leftPart, List.flatMap_cons]
    rw [hcons, List.countP_append, ih, List.countP_cons]
    have hhead : (if (matchRows B a).isEmpty then [mkLeft a]
        else (matchRows B a).map (mkBoth a)).countP (fun r => decide (ckey r = k)) =
        if akey a = k then 1 else 0 := by
      by_cases he : (matchRows B a).isEmpty
      · rw [if_pos he]
        simp [List.countP_cons, ckey_mkLeft]
      · rw [if_neg he]
        rw [List.countP_map]
        by_cases hk : akey a = k
        · have hall : ∀ x ∈ matchRows B a,
              ((fun r => decide (ckey r = k)) ∘ mkBoth a) x = true := by
            intro x hx
            simp [ckey_mkBoth, hk]
          rw [List.countP_eq_length.mpr hall, length_matchRows_eq_one hB he]
          simp [hk]
        · have hall : ∀ x ∈ matchRows B a,
              ¬ ((fun r => decide (ckey r = k)) ∘ mkBoth a) x = true := by
            intro x hx
            simp [ckey_mkBoth, hk]
          rw [List.countP_eq_zero.mpr hall]
          simp [hk]
    rw [hhead]
    simp only [decide_eq_true_eq]
    omega

theorem countP_rightPart (A B : List ARow) (k : String × String × String)
    (hB : (B.map akey).Nodup) :
    (rightPart A B).countP (fun r => decide (ckey r = k)) =
      if k ∈ B.map akey ∧ k ∉ A.map akey then 1 else 0 := by
  rw [rightPart, List.countP_map]
  have hfun : ((fun r => decide (ckey r = k)) ∘ mkRight) =
      fun b => decide (akey b = k) := rfl
  rw [hfun]
  have hnodup : (((B.filter fun b => A.all fun a => !decide (akey a = akey b)).map akey)).Nodup :=
    hB.sublist (List.Sublist.map akey (List.filter_sublist B))
  rw [countP_key_nodup _ k hnodup]
  have hiff : k ∈ (B.filter fun b => A.all fun a => !decide (akey a = akey b)).map akey ↔
      (k ∈ B.map akey ∧ k ∉ A.map akey) := by
    constructor
    · intro hmem
      rcases List.mem_map.mp hmem with ⟨b, hbf, rfl⟩
      obtain ⟨hbB, hq⟩ := List.mem_filter.mp hbf
      refine ⟨List.mem_map_of_mem akey hbB, fun hkA => ?_⟩
      rcases List.mem_map.mp hkA with ⟨a, haA, hak⟩
      have hnab := List.all_eq_true.mp hq a haA
      simp only [Bool.not_eq_true', decide_eq_false_iff_not] at hnab
      exact hnab hak
    · rintro ⟨hkB, hkA⟩
      rcases List.mem_map.mp hkB with ⟨b, hbB, rfl⟩
      refine List.mem_map_of_mem akey (List.mem_filter.mpr ⟨hbB, ?_⟩)
      rw [List.all_eq_true]
      intro a haA
      simp only [Bool.not_eq_true', decide_eq_false_iff_not]
      intro hab
      exact hkA (by rw [← hab]; exact List.mem_map_of_mem akey haA)
  simp only [hiff]

theorem mem_merge_outer_cases {A B : List ARow} {r : CRow}
    (h : r ∈ merge_outer A B) :
    (∃ a, a ∈ A ∧ ∃ b, b ∈ B ∧ akey b = akey a ∧ r = mkBoth a b) ∨
    (∃ a, a ∈ A ∧ (∀ b ∈ B, akey b ≠ akey a) ∧ r = mkLeft a) ∨
    (∃ b, b ∈ B ∧ (∀ a ∈ A, akey a ≠ akey b) ∧ r = mkRight b) := by
  rw [merge_outer, List.mem_append] at h
  rcases h with h | h
  · rcases mem_leftPart.mp h with ⟨a, ha, ⟨he, rfl⟩ | ⟨b, hb, rfl⟩⟩
    · right; left
      refine ⟨a, ha, fun b hbB hk => ?_, rfl⟩
      have hmem : b ∈ matchRows B a := List.mem_filter.mpr ⟨hbB, by simp [hk]⟩
      rw [List.isEmpty_iff] at he
      rw [he] at hmem
      exact absurd hmem (List.not_mem_nil b)
    · left
      obtain ⟨hbB, hq⟩ := List.mem_filter.mp hb
      exact ⟨a, ha, b, hbB, of_decide_eq_true hq, rfl⟩
  · rcases mem_rightPart.mp h with ⟨b, hb, hall, rfl⟩
    right; right
    exact ⟨b, hb, hall, rfl⟩

/-- Claim C2 (amended): provided each input table has at most one row per
identity key, the merged table has exactly one row per key present in
either input and no others; a key present in only one table gets exact
zeros for the other asset's fields, with the combined totals equal to the
present asset's values unchanged; and in every merged row the combined
totals are the sums of the two per-asset values. -/
theorem merge_outer_spec (A B : List ARow)
    (hA : (A.map akey).Nodup) (hB : (B.map akey).Nodup) :
    (∀ k, (k ∈ A.map akey ∨ k ∈ B.map akey) →
      (merge_outer A B).countP (fun r => decide (ckey r = k)) = 1) ∧
    (∀ r ∈ merge_outer A B, ckey r ∈ A.map akey ∨ ckey r ∈ B.map akey) ∧
    (∀ r ∈ merge_outer A B, ckey r ∉ B.map akey →
      r.ethHeld = 0 ∧ r.entryETH = 0 ∧ r.currentETH = 0 ∧
      r.totalCurrent = r.currentBTC ∧ r.totalEntry = r.entryBTC) ∧
    (∀ r ∈ merge_outer A B, ckey r ∉ A.map akey →
      r.btcHeld = 0 ∧ r.entryBTC = 0 ∧ r.currentBTC = 0 ∧
      r.totalCurrent = r.currentETH ∧ r.totalEntry = r.entryETH) ∧
    (∀ r ∈ merge_outer A B,
      r.totalEntry = r.entryBTC + r.entryETH ∧
      r.totalCurrent = r.currentBTC + r.currentETH) := by
  refine ⟨fun k hk => ?_, fun r hr => ?_, fun r hr hnB => ?_, fun r hr hnA => ?_,
    fun r hr => ?_⟩
  · rw [merge_outer, List.countP_append, countP_leftPart A B k hB,
      countP_key_nodup A k hA, countP_rightPart A B k hB]
    by_cases hkA : k ∈ A.map akey
    · rw [if_pos hkA, if_neg (by simp [hkA])]
    · rw [if_neg hkA]
      rcases hk with hk | hkB
      · exact absurd hk hkA
      · rw [if_pos ⟨hkB, hkA⟩]
  · rcases mem_merge_outer_cases hr with ⟨a, ha, b, hb, hk, rfl⟩ |
      ⟨a, ha, hall, rfl⟩ | ⟨b, hb, hall, rfl⟩
    · exact Or.inl (by rw [ckey_mkBoth]; exact List.mem_map_of_mem akey ha)
    · exact Or.inl (by rw [ckey_mkLeft]; exact List.mem_map_of_mem akey ha)
    · exact Or.inr (by rw [ckey_mkRight]; exact List.mem_map_of_mem akey hb)
  · rcases mem_merge_outer_cases hr with ⟨a, ha, b, hb, hk, rfl⟩ |
      ⟨a, ha, hall, rfl⟩ | ⟨b, hb, hall, rfl⟩
    · exact absurd (by rw [ckey_mkBoth, ← hk]; exact List.mem_map_of_mem akey hb) hnB
    · exact ⟨rfl, rfl, rfl, add_zero _, add_zero _⟩
    · exact absurd (by rw [ckey_mkRight]; exact List.mem_map_of_mem akey hb) hnB
  · rcases mem_merge_outer_cases hr with ⟨a, ha, b, hb, hk, rfl⟩ |
      ⟨a, ha, hall, rfl⟩ | ⟨b, hb, hall, rfl⟩
    · exact absurd (by rw [ckey_mkBoth]; exact List.mem_map_of_mem akey ha) hnA
    · exact absurd (by rw [ckey_mkLeft]; exact List.mem_map_of_mem akey ha) hnA
    · exact ⟨rfl, rfl, rfl, zero_add _, zero_add _⟩
  · rcases mem_merge_outer_cases hr with ⟨a, ha, b, hb, hk, rfl⟩ |
      ⟨a, ha, hall, rfl⟩ | ⟨b, hb, hall, rfl⟩
    · exact ⟨rfl, rfl⟩
    · exact ⟨rfl, rfl⟩
    · exact ⟨rfl, rfl⟩

/-- Row used to exhibit a duplicated identity key. -/
def dupRow : ARow := ⟨"Dup", "D", "US", 1, 1, 1⟩

/-- Counterexample to claim C2 as stated: a table containing the same
identity key twice makes the outer merge emit two rows for that key, not
exactly one. -/
theorem merge_outer_duplicate_key_counterexample :
    akey dupRow ∈ ([dupRow, dupRow].map akey) ∧
    (merge_outer [dupRow, dupRow] []).countP
      (fun r => decide (ckey r = akey dupRow)) = 2 :=
  ⟨List.mem_map_of_mem akey (List.mem_cons_self dupRow [dupRow]), rfl⟩

/-- Sample rows with distinct identity keys. -/
def rowA : ARow := ⟨"Alpha", "A", "US", 1, 10, 20⟩

/-- Second sample row with a distinct identity key. -/
def rowB : ARow := ⟨"Beta", "B", "DE", 2, 30, 40⟩

/-- Witness for the amended C2 at concrete duplicate-free tables. -/
theorem merge_outer_spec_witness :
    ([rowA].map akey).Nodup ∧ ([rowB].map akey).Nodup ∧
    (merge_outer [rowA] [rowB]).countP (fun r => decide (ckey r = akey rowA)) = 1 :=
  ⟨List.nodup_singleton _, List.nodup_singleton _,
    (merge_outer_spec [rowA] [rowB] (List.nodup_singleton _)
      (List.nodup_singleton _)).1 (akey rowA)
      (Or.inl (List.mem_map_of_mem akey (List.mem_singleton.mpr rfl)))⟩

end Treasury
